import Mathlib

/-!
Verification development for TheHand, a voice-activated dictation front-end.

The development shallow-embeds the core of the program:

* `src/audio.rs` — the Segmenter (`CaptureState`): RMS-driven voice-activity
  detection with hysteresis timers, owning the in-progress utterance buffer.
* `src/state.rs` — the application state container (`AppStateContainer`) with
  its bounded transcription history.
* `src/main.rs` — the orchestrator's audio-event handling step.
* `src/transcribe.rs` / `src/typing.rs` — the transcription output cleanup and
  the keystroke replay.

Modelling conventions:

* `f32` quantities (sample values, RMS levels, monotonic timestamps, durations)
  are modelled as exact integers `ℤ`: the segmenter consumes them only through
  linear-order comparisons and subtraction, so any linearly ordered abelian
  group models the control flow faithfully, and `ℤ` keeps every definition
  kernel-executable.
* `Instant::now()` is modelled by an explicit `now : ℤ` argument to each call
  that reads the clock; `start.elapsed()` becomes `now - start`.
* The source computes `rms = calculate_rms(samples)` (a floating-point square
  root); the model passes the computed level `rms` alongside `samples`, since
  the state machine depends on the samples only through this scalar (which it
  compares against the thresholds) and through the raw block appended to the
  buffer.
* Events are returned as an ordered list instead of being pushed into the
  `mpsc` channel (`event_tx.send` ignores send errors, so the channel is a
  pure sink).
* `save_wav` performs file I/O that can fail; the outcome is supplied as a
  `saveErr : Option String` environment parameter (`none` = the WAV file was
  written successfully, `some e` = the write failed with error `e`).
  `RecordingStopped` in the source carries the path of the temporary WAV file
  whose contents are exactly the finalized buffer; the model carries the
  finalized buffer itself.
-/

namespace TheHand

/-- Audio events sent from the capture thread (src/audio.rs, `enum AudioEvent`). -/
inductive AudioEvent where
  /-- Audio level update (RMS value). -/
  | Level (rms : ℤ)
  /-- Voice activity detected. -/
  | VoiceDetected
  /-- Recording started. -/
  | RecordingStarted
  /-- Recording stopped; the source carries the WAV path, the model the finalized samples. -/
  | RecordingStopped (utterance : List ℤ)
  /-- Silence detected. -/
  | SilenceDetected
  /-- Error occurred. -/
  | Error (msg : String)
  deriving DecidableEq

/-- Whether an event is an `Error` event. -/
def isErrorEvent : AudioEvent → Bool
  | .Error _ => true
  | _ => false

/-- Whether an event is one of the lifecycle events (everything except `Error`). -/
def isLifecycle : AudioEvent → Bool
  | .Level _ => true
  | .VoiceDetected => true
  | .RecordingStarted => true
  | .RecordingStopped _ => true
  | .SilenceDetected => true
  | .Error _ => false

/-- Audio capture and VAD state (src/audio.rs, `struct CaptureState`).
The `event_tx` channel is not part of the model (events are returned). -/
structure CaptureState where
  /-- Whether we're currently recording. -/
  recording : Bool
  /-- Buffer for recorded samples. -/
  buffer : List ℤ
  /-- Time when silence was first detected. -/
  silence_start : Option ℤ
  /-- Time when recording started. -/
  recording_start : Option ℤ
  /-- Voice threshold. -/
  voice_threshold : ℤ
  /-- Silence threshold. -/
  silence_threshold : ℤ
  /-- Silence duration before stopping. -/
  silence_duration : ℤ
  /-- Minimum speech duration. -/
  min_speech_duration : ℤ
  /-- Sample rate. -/
  sample_rate : ℕ
  deriving DecidableEq

/-- `CaptureState::new` (src/audio.rs). -/
def CaptureState.new (voice_threshold silence_threshold silence_duration
    min_speech_duration : ℤ) (sample_rate : ℕ) : CaptureState where
  recording := false
  buffer := []
  silence_start := none
  recording_start := none
  voice_threshold := voice_threshold
  silence_threshold := silence_threshold
  silence_duration := silence_duration
  min_speech_duration := min_speech_duration
  sample_rate := sample_rate

/-- `CaptureState::stop_recording` (src/audio.rs): early-returns when not
recording; otherwise sends `RecordingStopped(path)` if `save_wav` succeeded and
`Error("Failed to save audio: ...")` if it failed, then resets all recording
state. -/
def CaptureState.stop_recording (st : CaptureState) (saveErr : Option String) :
    CaptureState × List AudioEvent :=
  if !st.recording then (st, [])
  else
    let evs := match saveErr with
      | none => [AudioEvent.RecordingStopped st.buffer]
      | some e => [AudioEvent.Error ("Failed to save audio: " ++ e)]
    ({ st with recording := false, buffer := [], silence_start := none,
               recording_start := none }, evs)

/-- `CaptureState::cancel_recording` (src/audio.rs): resets all recording state
and sends no event. -/
def CaptureState.cancel_recording (st : CaptureState) :
    CaptureState × List AudioEvent :=
  ({ st with recording := false, buffer := [], silence_start := none,
             recording_start := none }, [])

/-- `CaptureState::process_samples` (src/audio.rs). `now` is the current
monotonic instant, `rms` the level `calculate_rms(samples)`, and `saveErr` the
outcome of the `save_wav` call should this block finalize the recording. The
`Level` event is sent first, before the state-machine logic runs. -/
def process_samples (saveErr : Option String) (now : ℤ) (st : CaptureState)
    (samples : List ℤ) (rms : ℤ) : CaptureState × List AudioEvent :=
  if !st.recording then
    -- Not recording - check for voice activity
    if rms > st.voice_threshold then
      ({ st with recording := true, recording_start := some now,
                 silence_start := none, buffer := samples },
       [AudioEvent.Level rms, AudioEvent.VoiceDetected,
        AudioEvent.RecordingStarted])
    else
      (st, [AudioEvent.Level rms])
  else
    -- Recording - add to buffer and check for silence
    let st1 := { st with buffer := st.buffer ++ samples }
    if rms < st1.silence_threshold then
      match st1.silence_start with
      | none =>
        ({ st1 with silence_start := some now },
         [AudioEvent.Level rms, AudioEvent.SilenceDetected])
      | some silence_start =>
        let silence_elapsed := now - silence_start
        if silence_elapsed ≥ st1.silence_duration then
          match st1.recording_start with
          | some recording_start =>
            let recording_elapsed := now - recording_start
            if recording_elapsed ≥ st1.min_speech_duration then
              let r := st1.stop_recording saveErr
              (r.1, AudioEvent.Level rms :: r.2)
            else
              let r := st1.cancel_recording
              (r.1, AudioEvent.Level rms :: r.2)
          | none => (st1, [AudioEvent.Level rms])
        else
          (st1, [AudioEvent.Level rms])
    else
      -- Voice still active, reset silence timer
      ({ st1 with silence_start := none }, [AudioEvent.Level rms])

/-- One operation on the shared segmenter state: a block delivered to the audio
callback, or `stop_recording` / `cancel_recording` requested from outside. -/
inductive SegOp where
  | process (saveErr : Option String) (now : ℤ) (samples : List ℤ) (rms : ℤ)
  | stop (saveErr : Option String)
  | cancel
  deriving DecidableEq

/-- Apply one segmenter operation, discarding the emitted events. -/
def applySegOp (st : CaptureState) : SegOp → CaptureState
  | .process saveErr now samples rms => (process_samples saveErr now st samples rms).1
  | .stop saveErr => (st.stop_recording saveErr).1
  | .cancel => st.cancel_recording.1

/-- Run a sequence of segmenter operations from a starting state. -/
def runSegOps (st : CaptureState) (ops : List SegOp) : CaptureState :=
  ops.foldl applySegOp st

/-- A concrete recording state used by several examples below: thresholds
`voice = 5`, `silence = 1`, `silence_duration = 10`, `min_speech_duration = 2`,
recording since instant `10` with buffered block `[7]`, silence since
instant `30`. -/
def sampleRecordingState : CaptureState :=
  { CaptureState.new 5 1 10 2 44100 with
      recording := true
      buffer := [7]
      silence_start := some 30
      recording_start := some 10 }

/-- Application state machine (src/state.rs, `enum AppState`). -/
inductive AppState where
  /-- Monitoring for voice. -/
  | Idle
  /-- Capturing audio. -/
  | Recording
  /-- Processing with whisper.cpp. -/
  | Transcribing
  /-- Sending output to focused window. -/
  | Typing
  /-- Voice detection disabled. -/
  | Muted
  deriving DecidableEq

/-- Transcription history entry (src/state.rs, `struct HistoryEntry`); the
`Local::now()` wall-clock timestamp is modelled as an integer. -/
structure HistoryEntry where
  timestamp : ℤ
  text : String
  deriving DecidableEq

/-- Application state container (src/state.rs, `struct AppStateContainer`).
The `VecDeque` history is a list whose head is the front (newest entry). -/
structure AppStateContainer where
  state : AppState
  history : List HistoryEntry
  current_text : String
  audio_level : ℤ
  error_message : Option String
  should_quit : Bool
  history_limit : ℕ
  deriving DecidableEq

/-- `AppStateContainer::new` (src/state.rs). -/
def AppStateContainer.new (history_limit : ℕ) : AppStateContainer where
  state := .Idle
  history := []
  current_text := ""
  audio_level := 0
  error_message := none
  should_quit := false
  history_limit := history_limit

/-- The `while self.history.len() > self.history_limit { self.history.pop_back(); }`
loop of `add_to_history` (src/state.rs): pop from the back until the length is
within the limit. -/
def trim_history (limit : ℕ) (h : List HistoryEntry) : List HistoryEntry :=
  if _hlen : h.length > limit then trim_history limit h.dropLast else h
termination_by h.length
decreasing_by simp only [List.length_dropLast]; omega

/-- `AppStateContainer::add_to_history` (src/state.rs): push the new entry to
the front, then evict from the back while over the limit. `now` models the
`Local::now()` timestamp taken by `HistoryEntry::new`. -/
def AppStateContainer.add_to_history (c : AppStateContainer) (now : ℤ)
    (text : String) : AppStateContainer :=
  { c with history := trim_history c.history_limit (⟨now, text⟩ :: c.history) }

/-- `AppStateContainer::set_state` (src/state.rs): set the state and clear the
error message when the new state is not `Idle`. -/
def AppStateContainer.set_state (c : AppStateContainer) (s : AppState) :
    AppStateContainer :=
  let c1 := { c with state := s }
  if s ≠ AppState.Idle then { c1 with error_message := none } else c1

/-- `AppStateContainer::toggle_mute` (src/state.rs): `Muted ↦ Idle`, anything
else `↦ Muted`; no other field is touched. -/
def AppStateContainer.toggle_mute (c : AppStateContainer) : AppStateContainer :=
  { c with state := match c.state with
      | AppState.Muted => AppState.Idle
      | _ => AppState.Muted }

/-- `AppStateContainer::set_error` (src/state.rs). -/
def AppStateContainer.set_error (c : AppStateContainer) (message : String) :
    AppStateContainer :=
  { c with error_message := some message }

/-- `AppStateContainer::clear_error` (src/state.rs). -/
def AppStateContainer.clear_error (c : AppStateContainer) : AppStateContainer :=
  { c with error_message := none }

/-- `AppStateContainer::update_audio_level` (src/state.rs): clamp to `[0, 1]`. -/
def AppStateContainer.update_audio_level (c : AppStateContainer) (level : ℤ) :
    AppStateContainer :=
  { c with audio_level := min (max level 0) 1 }

/-- `AppStateContainer::set_current_text` (src/state.rs). -/
def AppStateContainer.set_current_text (c : AppStateContainer) (text : String) :
    AppStateContainer :=
  { c with current_text := text }

/-- `AppStateContainer::clear_current_text` (src/state.rs). -/
def AppStateContainer.clear_current_text (c : AppStateContainer) :
    AppStateContainer :=
  { c with current_text := "" }

/-- The orchestrator-loop state relevant to audio-event handling
(src/main.rs, `main_loop`): the app container plus the local
`pending_transcription` variable (the source stores the WAV path; the model
stores the finalized samples the file contains). -/
structure LoopState where
  app : AppStateContainer
  pending_transcription : Option (List ℤ)
  deriving DecidableEq

/-- One iteration of the `while let Some(event) = audio.poll_event()` match in
`main_loop` (src/main.rs), handling a single drained audio event. -/
def handle_audio_event (s : LoopState) : AudioEvent → LoopState
  | .Level level =>
    if s.app.state ≠ AppState.Muted then
      { s with app := s.app.update_audio_level level }
    else s
  | .VoiceDetected =>
    if s.app.state ≠ AppState.Muted then
      { s with app := s.app.clear_error }
    else s
  | .RecordingStarted =>
    if s.app.state ≠ AppState.Muted then
      { s with app := (s.app.set_state AppState.Recording).clear_current_text }
    else s
  | .RecordingStopped utterance =>
    if s.app.state ≠ AppState.Muted then
      { app := s.app.set_state AppState.Transcribing,
        pending_transcription := some utterance }
    else s
  | .SilenceDetected =>
    -- Just for informational purposes
    s
  | .Error msg =>
    { s with app := (s.app.set_error msg).set_state AppState.Idle }

/-- Rust `char::is_whitespace`, restricted to the ASCII whitespace characters
that Lean's `Char.isWhitespace` recognises (space, tab, carriage return,
newline); the exotic Unicode whitespace code points are not modelled. -/
def isWs (c : Char) : Bool := c.isWhitespace

/-- Rust `str::trim` on a character list: drop whitespace from both ends. -/
def trimChars (s : List Char) : List Char :=
  ((s.dropWhile isWs).reverse.dropWhile isWs).reverse

/-- The trailing carriage-return strip that Rust `str::lines` applies to each
line. -/
def stripCr (l : List Char) : List Char :=
  if l.getLast? = some '\x0d' then l.dropLast else l

/-- Accumulating worker for `rustLines`: `cur` is the current line read so far.
A final newline terminates the last line rather than opening an empty one. -/
def rustLinesAux (cur : List Char) : List Char → List (List Char)
  | [] => [stripCr cur]
  | c :: rest =>
    if c = '\n' then
      if rest.isEmpty then [stripCr cur]
      else stripCr cur :: rustLinesAux [] rest
    else
      rustLinesAux (cur ++ [c]) rest

/-- Rust `str::lines`: split on `'\n'` (a trailing newline does not produce a
final empty line), stripping one trailing `'\x0d'` from each line. -/
def rustLines (s : List Char) : List (List Char) :=
  if s.isEmpty then [] else rustLinesAux [] s

/-- `Vec::join(" ")` on the filtered lines of `transcribe` (src/transcribe.rs). -/
def joinSpace : List (List Char) → List Char
  | [] => []
  | [l] => l
  | l :: ls => l ++ ' ' :: joinSpace ls

/-- The output-cleanup stage of `transcribe` (src/transcribe.rs): trim the raw
whisper stdout, keep the lines whose trim is non-empty, join them with single
spaces, and fail when the result is empty. The subprocess invocation itself is
out of scope; `raw` is the UTF-8 decoded stdout of a successful run. -/
def clean_transcription (raw : List Char) : Except String (List Char) :=
  let t := trimChars raw
  let ls := (rustLines t).filter (fun line => !(trimChars line).isEmpty)
  let cleaned := joinSpace ls
  if cleaned.isEmpty then Except.error "Whisper returned empty transcription"
  else Except.ok cleaned

/-- One synthetic keystroke of `type_text` (src/typing.rs): either the
dedicated Enter key or a literal character. -/
inductive KeyAction where
  | enterKey
  | charKey (c : Char)
  deriving DecidableEq

/-- `type_text` (src/typing.rs), modelled as the sequence of key actions it
emits: a newline becomes the Enter key, anything else a literal keystroke.
The inter-keystroke sleep is timing only and is not modelled. -/
def type_text (text : List Char) : List KeyAction :=
  text.map (fun c => if c = '\n' then KeyAction.enterKey else KeyAction.charKey c)



/-! ### Helper lemmas -/

/-- Shape of the event list emitted for a single block: always `Level rms`
first, followed by at most one state-changing alternative; an `Error` can only
arise from a failed WAV save. -/
theorem process_events_shape (saveErr : Option String) (now : ℤ)
    (st : CaptureState) (samples : List ℤ) (rms : ℤ) :
    ∃ rest, (process_samples saveErr now st samples rms).2 =
        AudioEvent.Level rms :: rest ∧
      (rest = [] ∨
       rest = [AudioEvent.VoiceDetected, AudioEvent.RecordingStarted] ∨
       rest = [AudioEvent.SilenceDetected] ∨
       rest = [AudioEvent.RecordingStopped (st.buffer ++ samples)] ∨
       (∃ e, saveErr = some e ∧
         rest = [AudioEvent.Error ("Failed to save audio: " ++ e)])) := by
  unfold process_samples CaptureState.stop_recording CaptureState.cancel_recording
  dsimp only
  repeat' split
  all_goals first
    | exact ⟨[], rfl, Or.inl rfl⟩
    | exact ⟨_, rfl, Or.inr (Or.inl rfl)⟩
    | exact ⟨_, rfl, Or.inr (Or.inr (Or.inl rfl))⟩
    | exact ⟨_, rfl, Or.inr (Or.inr (Or.inr (Or.inl rfl)))⟩
    | simp_all

/-- One segmenter operation preserves the `Silent`-buffer-empty invariant. -/
theorem applySegOp_buffer_inv (st : CaptureState) (op : SegOp)
    (h : st.recording = false → st.buffer = []) :
    (applySegOp st op).recording = false → (applySegOp st op).buffer = [] := by
  cases op with
  | process saveErr now samples rms =>
    unfold applySegOp process_samples CaptureState.stop_recording
      CaptureState.cancel_recording
    dsimp only
    repeat' split
    all_goals intro hr
    all_goals first
      | rfl
      | exact h hr
      | simp_all
  | stop saveErr =>
    unfold applySegOp CaptureState.stop_recording
    dsimp only
    repeat' split
    all_goals intro hr
    all_goals first
      | rfl
      | exact h hr
  | cancel =>
    intro _
    rfl

/-- Any run of segmenter operations preserves the `Silent`-buffer-empty
invariant. -/
theorem runSegOps_buffer_inv (ops : List SegOp) (st : CaptureState)
    (h : st.recording = false → st.buffer = []) :
    (runSegOps st ops).recording = false → (runSegOps st ops).buffer = [] := by
  induction ops generalizing st with
  | nil => exact h
  | cons op ops ih => exact ih (applySegOp st op) (applySegOp_buffer_inv st op h)

/-! ### Claims -/

/-- C1: while Recording, on a block with RMS below the silence threshold when
the grace period is already running and has lasted at least `silence_duration`:
if the recording has lasted at least `min_speech_duration`, the segmenter emits
`RecordingStopped` carrying the whole utterance (all blocks appended since
voice onset, the just-appended trailing silence block included) and resets to
`Silent` with empty buffer and cleared timers; otherwise it resets identically
but emits nothing beyond the `Level` update. Stated for a successful WAV save
(`saveErr = none`). -/
theorem c1_finalize_or_discard (now s r : ℤ) (st : CaptureState)
    (samples : List ℤ) (rms : ℤ) (hrec : st.recording = true)
    (hss : st.silence_start = some s) (hrs : st.recording_start = some r)
    (hsil : rms < st.silence_threshold) (hgrace : now - s ≥ st.silence_duration) :
    (now - r ≥ st.min_speech_duration →
      process_samples none now st samples rms =
        ({ st with recording := false, buffer := [], silence_start := none,
                   recording_start := none },
         [AudioEvent.Level rms,
          AudioEvent.RecordingStopped (st.buffer ++ samples)])) ∧
    (¬ now - r ≥ st.min_speech_duration →
      process_samples none now st samples rms =
        ({ st with recording := false, buffer := [], silence_start := none,
                   recording_start := none },
         [AudioEvent.Level rms])) := by
  constructor
  · intro hmin
    simp [process_samples, hrec, hss, hrs, hsil, hgrace, hmin,
          CaptureState.stop_recording]
  · intro hmin
    simp [process_samples, hrec, hss, hrs, hsil, hgrace, hmin,
          CaptureState.cancel_recording]

theorem c1_witness :
    sampleRecordingState.recording = true ∧
    sampleRecordingState.silence_start = some 30 ∧
    sampleRecordingState.recording_start = some 10 ∧
    (0 : ℤ) < sampleRecordingState.silence_threshold ∧
    (40 : ℤ) - 30 ≥ sampleRecordingState.silence_duration ∧
    (40 : ℤ) - 10 ≥ sampleRecordingState.min_speech_duration ∧
    process_samples none 40 sampleRecordingState [1] 0 =
      ({ CaptureState.new 5 1 10 2 44100 with
           recording := false
           buffer := []
           silence_start := none
           recording_start := none },
       [AudioEvent.Level 0, AudioEvent.RecordingStopped [7, 1]]) :=
  ⟨by decide, by decide, by decide, by decide, by decide, by decide,
   (c1_finalize_or_discard 40 30 10 sampleRecordingState [1] 0 (by decide)
     (by decide) (by decide) (by decide) (by decide)).1 (by decide)⟩

/-- C4 (amended): `process_samples` is total, and when the WAV save succeeds
every emitted event is a lifecycle event. (As stated the original claim is
false: the `Error` event originates in the Segmenter itself — see the
counterexample — while the capture engine's stream-error callback emits no
event at all.) -/
theorem c4_lifecycle_only (now : ℤ) (st : CaptureState) (samples : List ℤ)
    (rms : ℤ) (ev : AudioEvent)
    (hev : ev ∈ (process_samples none now st samples rms).2) :
    isLifecycle ev = true := by
  obtain ⟨rest, heq, hcase⟩ := process_events_shape none now st samples rms
  rw [heq] at hev
  rcases hcase with h | h | h | h | ⟨e, he, h⟩
  all_goals subst h
  all_goals simp only [List.mem_cons, List.mem_singleton, List.not_mem_nil,
    or_false] at hev
  · subst hev; rfl
  · rcases hev with rfl | rfl | rfl <;> rfl
  · rcases hev with rfl | rfl <;> rfl
  · rcases hev with rfl | rfl <;> rfl
  · exact absurd he (by simp)

theorem c4_witness :
    AudioEvent.Level 3 ∈
      (process_samples none 40 sampleRecordingState [1] 3).2 ∧
    isLifecycle (AudioEvent.Level 3) = true :=
  ⟨by decide, c4_lifecycle_only 40 sampleRecordingState [1] 3
    (AudioEvent.Level 3) (by decide)⟩

/-- C4 counterexample: the Segmenter itself emits an `Error` event when the
WAV save of a finalized utterance fails, refuting \"it never emits a
CaptureError/Error event\". -/
theorem c4_counterexample :
    AudioEvent.Error "Failed to save audio: disk full" ∈
      (process_samples (some "disk full") 40 sampleRecordingState [1] 0).2 ∧
    isLifecycle (AudioEvent.Error "Failed to save audio: disk full") = false := by
  constructor
  · decide
  · rfl

/-- C5: every single `process_samples` call emits exactly one `Level` event,
first and unconditionally, followed by at most one state-changing alternative
(the `VoiceDetected`/`RecordingStarted` pair, `SilenceDetected`,
`RecordingStopped`, or — only on a failed WAV save — an `Error`). -/
theorem c5_level_first_single_transition (saveErr : Option String) (now : ℤ)
    (st : CaptureState) (samples : List ℤ) (rms : ℤ) :
    ∃ rest, (process_samples saveErr now st samples rms).2 =
        AudioEvent.Level rms :: rest ∧
      (rest = [] ∨
       rest = [AudioEvent.VoiceDetected, AudioEvent.RecordingStarted] ∨
       rest = [AudioEvent.SilenceDetected] ∨
       (∃ b, rest = [AudioEvent.RecordingStopped b]) ∨
       (∃ m, rest = [AudioEvent.Error m])) ∧
      ∀ l, AudioEvent.Level l ∉ rest := by
  obtain ⟨rest, heq, hcase⟩ := process_events_shape saveErr now st samples rms
  refine ⟨rest, heq, ?_, ?_⟩
  · rcases hcase with h | h | h | h | ⟨e, _, h⟩
    · exact Or.inl h
    · exact Or.inr (Or.inl h)
    · exact Or.inr (Or.inr (Or.inl h))
    · exact Or.inr (Or.inr (Or.inr (Or.inl ⟨_, h⟩)))
    · exact Or.inr (Or.inr (Or.inr (Or.inr ⟨_, h⟩)))
  · intro l hl
    rcases hcase with h | h | h | h | ⟨e, _, h⟩
    all_goals subst h
    all_goals simp at hl

/-- C6: while Silent, a block with RMS strictly above `voice_threshold` starts
recording (timers and buffer set as the source does) and emits
`VoiceDetected` then `RecordingStarted` after the `Level` update; a block with
RMS at or below the threshold (ties included) changes nothing and emits only
the `Level` update, leaving the buffer as it was. -/
theorem c6_silent_block (saveErr : Option String) (now : ℤ) (st : CaptureState)
    (samples : List ℤ) (rms : ℤ) (hrec : st.recording = false) :
    (rms > st.voice_threshold →
      process_samples saveErr now st samples rms =
        ({ st with
             recording := true
             recording_start := some now
             silence_start := none
             buffer := samples },
         [AudioEvent.Level rms, AudioEvent.VoiceDetected,
          AudioEvent.RecordingStarted])) ∧
    (rms ≤ st.voice_threshold →
      process_samples saveErr now st samples rms = (st, [AudioEvent.Level rms]) ∧
      (process_samples saveErr now st samples rms).1.buffer = st.buffer) := by
  constructor
  · intro hgt
    simp [process_samples, hrec, hgt]
  · intro hle
    simp [process_samples, hrec, not_lt.mpr hle]

theorem c6_witness :
    (CaptureState.new 5 1 10 2 44100).recording = false ∧
    ((5 : ℤ) ≤ 5 ∧
      process_samples none 3 (CaptureState.new 5 1 10 2 44100) [9] 5 =
        (CaptureState.new 5 1 10 2 44100, [AudioEvent.Level 5]) ∧
      (process_samples none 3 (CaptureState.new 5 1 10 2 44100) [9] 5).1.buffer =
        (CaptureState.new 5 1 10 2 44100).buffer) :=
  ⟨by decide, by decide,
   (c6_silent_block none 3 (CaptureState.new 5 1 10 2 44100) [9] 5
     (by decide)).2 (by decide)⟩

/-- C7: while Recording with the grace period running, a block with RMS at or
above `silence_threshold` clears `silence_start` (cancelling the pending stop)
and stays Recording with the block appended; a later silent block restarts the
grace period at its own instant, so silence time never accumulates across
separate silence runs. -/
theorem c7_grace_cancelled_on_voice (saveErr saveErr2 : Option String)
    (now now2 s : ℤ) (st : CaptureState) (samples samples2 : List ℤ)
    (rms rms2 : ℤ) (hrec : st.recording = true)
    (_hss : st.silence_start = some s) (hge : rms ≥ st.silence_threshold) :
    process_samples saveErr now st samples rms =
      ({ st with
           buffer := st.buffer ++ samples
           silence_start := none },
       [AudioEvent.Level rms]) ∧
    (rms2 < st.silence_threshold →
      process_samples saveErr2 now2
          (process_samples saveErr now st samples rms).1 samples2 rms2 =
        ({ st with
             buffer := (st.buffer ++ samples) ++ samples2
             silence_start := some now2 },
         [AudioEvent.Level rms2, AudioEvent.SilenceDetected])) := by
  have h1 : process_samples saveErr now st samples rms =
      ({ st with
           buffer := st.buffer ++ samples
           silence_start := none },
       [AudioEvent.Level rms]) := by
    simp [process_samples, hrec, not_lt.mpr hge]
  refine ⟨h1, ?_⟩
  intro hlt
  rw [h1]
  simp [process_samples, hrec, hlt]

theorem c7_witness :
    sampleRecordingState.recording = true ∧
    sampleRecordingState.silence_start = some 30 ∧
    (3 : ℤ) ≥ sampleRecordingState.silence_threshold ∧
    process_samples none 40 sampleRecordingState [2] 3 =
      ({ sampleRecordingState with
           buffer := [7, 2]
           silence_start := none },
       [AudioEvent.Level 3]) :=
  ⟨by decide, by decide, by decide,
   (c7_grace_cancelled_on_voice none none 40 41 30 sampleRecordingState [2] [9]
     3 0 (by decide) (by decide) (by decide)).1⟩

/-- C8: from the initial segmenter state, after any sequence of operations
(processed blocks, stop or cancel requests), whenever the segmenter is not
recording its utterance buffer is empty. -/
theorem c8_silent_buffer_empty (vt sth sd msd : ℤ) (sr : ℕ) (ops : List SegOp)
    (h : (runSegOps (CaptureState.new vt sth sd msd sr) ops).recording = false) :
    (runSegOps (CaptureState.new vt sth sd msd sr) ops).buffer = [] :=
  runSegOps_buffer_inv ops (CaptureState.new vt sth sd msd sr) (fun _ => rfl) h

theorem c8_witness :
    (runSegOps (CaptureState.new 5 1 10 2 44100)
        [SegOp.process none 0 [3, 4] 6, SegOp.cancel]).recording = false ∧
    (runSegOps (CaptureState.new 5 1 10 2 44100)
        [SegOp.process none 0 [3, 4] 6, SegOp.cancel]).buffer = [] :=
  ⟨by decide, c8_silent_buffer_empty 5 1 10 2 44100
    [SegOp.process none 0 [3, 4] 6, SegOp.cancel] (by decide)⟩

/-- The while-loop of `add_to_history` keeps exactly the first `limit`
entries. -/
theorem trim_history_eq_take (limit : ℕ) (h : List HistoryEntry) :
    trim_history limit h = h.take limit := by
  generalize hn : h.length = n
  induction n using Nat.strong_induction_on generalizing h with
  | _ n ih =>
    rw [trim_history]
    split
    · rename_i hlen
      rw [ih h.dropLast.length (by rw [List.length_dropLast]; omega) h.dropLast
          rfl]
      rw [List.dropLast_eq_take, List.take_take]
      congr 1
      omega
    · rename_i hlen
      exact (List.take_of_length_le (by omega)).symm

/-- Truncating the right summand of an append to `n` does not change the
`n`-prefix of the append. -/
theorem take_append_take (A B : List HistoryEntry) (n : ℕ) :
    (A ++ B.take n).take n = (A ++ B).take n := by
  rw [List.take_append_eq_append_take, List.take_append_eq_append_take,
      List.take_take]
  congr 2
  omega

/-- `add_to_history`, folded over `(timestamp, text)` pairs, keeps the newest
`history_limit` entries in most-recent-first order (given a start container
already within its bound). -/
theorem foldl_add_to_history (ps : List (ℤ × String)) (c : AppStateContainer)
    (hlen : c.history.length ≤ c.history_limit) :
    (ps.foldl (fun a p => a.add_to_history p.1 p.2) c).history =
      ((ps.map fun p => HistoryEntry.mk p.1 p.2).reverse ++ c.history).take
        c.history_limit ∧
    (ps.foldl (fun a p => a.add_to_history p.1 p.2) c).history_limit =
      c.history_limit := by
  induction ps generalizing c with
  | nil =>
    exact ⟨by simp [List.take_of_length_le hlen], rfl⟩
  | cons p ps ih =>
    have hstep :
        (c.add_to_history p.1 p.2).history =
          (HistoryEntry.mk p.1 p.2 :: c.history).take c.history_limit := by
      simp [AppStateContainer.add_to_history, trim_history_eq_take]
    have hlimit : (c.add_to_history p.1 p.2).history_limit = c.history_limit :=
      rfl
    have hlen' :
        (c.add_to_history p.1 p.2).history.length ≤
          (c.add_to_history p.1 p.2).history_limit := by
      rw [hstep, hlimit, List.length_take]
      omega
    rcases ih (c.add_to_history p.1 p.2) hlen' with ⟨h1, h2⟩
    rw [List.foldl_cons] at *
    refine ⟨?_, by rw [h2, hlimit]⟩
    rw [h1, hstep, hlimit, take_append_take]
    simp [List.append_assoc]

/-- C9: starting from a fresh container, after every sequence of
`add_to_history` calls the history holds exactly the newest `limit` entries in
most-recent-first order — so its length never exceeds the configured capacity
and eviction is strictly oldest-first by insertion order, independent of the
entry texts. -/
theorem c9_history_bounded_fifo (limit : ℕ) (ps : List (ℤ × String)) :
    (ps.foldl (fun a p => a.add_to_history p.1 p.2)
        (AppStateContainer.new limit)).history =
      ((ps.map fun p => HistoryEntry.mk p.1 p.2).reverse).take limit ∧
    (ps.foldl (fun a p => a.add_to_history p.1 p.2)
        (AppStateContainer.new limit)).history.length ≤ limit := by
  have h := foldl_add_to_history ps (AppStateContainer.new limit)
    (by simp [AppStateContainer.new])
  rcases h with ⟨h1, _⟩
  rw [show (AppStateContainer.new limit).history = [] from rfl,
      show (AppStateContainer.new limit).history_limit = limit from rfl,
      List.append_nil] at h1
  exact ⟨h1, by rw [h1, List.length_take]; omega⟩

/-- C2 (amended): while `Muted`, every drained audio event other than `Error`
leaves the loop state completely unchanged (state, audio level, current text,
error message and pending transcription); an `Error` event, however, escapes
the mute guard: it stores the error message and forces the state to `Idle`
even while `Muted`. (As stated the original claim is false — see the
counterexample.) -/
theorem c2_muted_suppression (s : LoopState) (ev : AudioEvent) (msg : String)
    (hm : s.app.state = AppState.Muted) :
    (isErrorEvent ev = false → handle_audio_event s ev = s) ∧
    handle_audio_event s (AudioEvent.Error msg) =
      { s with app := { s.app with
          state := AppState.Idle
          error_message := some msg } } := by
  constructor
  · intro hne
    cases ev <;> simp_all [handle_audio_event, isErrorEvent]
  · rfl

theorem c2_witness :
    (⟨(AppStateContainer.new 10).toggle_mute, none⟩ : LoopState).app.state =
      AppState.Muted ∧
    isErrorEvent (AudioEvent.Level 1) = false ∧
    handle_audio_event ⟨(AppStateContainer.new 10).toggle_mute, none⟩
        (AudioEvent.Level 1) =
      ⟨(AppStateContainer.new 10).toggle_mute, none⟩ :=
  ⟨by decide, by decide,
   (c2_muted_suppression ⟨(AppStateContainer.new 10).toggle_mute, none⟩
     (AudioEvent.Level 1) "x" (by decide)).1 (by decide)⟩

/-- C2 counterexample: an `Error` event drained while `Muted` changes the
application state to `Idle` and stores the error message, refuting the claim
that every event leaves the `Muted` state and its fields unchanged. -/
theorem c2_counterexample :
    (⟨(AppStateContainer.new 10).toggle_mute, none⟩ : LoopState).app.state =
      AppState.Muted ∧
    (handle_audio_event ⟨(AppStateContainer.new 10).toggle_mute, none⟩
        (AudioEvent.Error "boom")).app.state = AppState.Idle ∧
    (handle_audio_event ⟨(AppStateContainer.new 10).toggle_mute, none⟩
        (AudioEvent.Error "boom")).app.error_message = some "boom" := by
  decide

/-- C3 (amended): `set_state` to any non-`Idle` state clears the stored error
message, but `toggle_mute` changes only the state and preserves the error
message — so the mute toggle moves the state away from `Idle` without clearing
a stored error, and an error message can be carried by `Muted` as well as
`Idle`. (As stated the original claim is false — see the counterexample.) -/
theorem c3_error_clearing (c : AppStateContainer) (s : AppState)
    (hs : s ≠ AppState.Idle) :
    (c.set_state s).error_message = none ∧
    c.toggle_mute.error_message = c.error_message := by
  constructor
  · simp [AppStateContainer.set_state, hs]
  · rfl

theorem c3_witness :
    AppState.Recording ≠ AppState.Idle ∧
    ((((AppStateContainer.new 10).set_error "boom").set_state
        AppState.Recording).error_message = none ∧
      ((AppStateContainer.new 10).set_error
          "boom").toggle_mute.error_message =
        ((AppStateContainer.new 10).set_error "boom").error_message) :=
  ⟨by decide, c3_error_clearing ((AppStateContainer.new 10).set_error "boom")
    AppState.Recording (by decide)⟩

/-- C3 counterexample: after an `Error` event (error stored, state `Idle`),
pressing the mute key reaches a `Muted` state that still carries the error
message — a reachable non-`Idle` state with an error present, and a transition
away from `Idle` (the mute toggle) that does not clear it. -/
theorem c3_counterexample :
    (handle_audio_event ⟨AppStateContainer.new 10, none⟩
        (AudioEvent.Error "boom")).app.toggle_mute.state = AppState.Muted ∧
    (handle_audio_event ⟨AppStateContainer.new 10, none⟩
        (AudioEvent.Error "boom")).app.toggle_mute.error_message =
      some "boom" := by
  decide

/-- The head of a `dropWhile` result fails the predicate. -/
theorem dropWhile_head_not (p : Char → Bool) (l : List Char) (c : Char)
    (tl : List Char) (h : l.dropWhile p = c :: tl) : p c = false := by
  induction l with
  | nil => simp at h
  | cons a l ih =>
    rw [List.dropWhile_cons] at h
    split at h
    · exact ih h
    · rename_i hpa
      injection h with h1 _
      subst h1
      simpa using hpa

/-- An element failing the predicate survives `dropWhile`. -/
theorem mem_dropWhile_of_not (p : Char → Bool) (l : List Char) (c : Char)
    (hc : c ∈ l) (hpc : p c = false) : c ∈ l.dropWhile p := by
  induction l with
  | nil => cases hc
  | cons a l ih =>
    rw [List.dropWhile_cons]
    split
    · rename_i hpa
      rcases List.mem_cons.mp hc with rfl | hmem
      · rw [hpa] at hpc
        cases hpc
      · exact ih hmem
    · exact hc

/-- A non-empty `dropWhile` result keeps the last element of the list. -/
theorem dropWhile_getLast? (p : Char → Bool) (l : List Char)
    (h : l.dropWhile p ≠ []) : (l.dropWhile p).getLast? = l.getLast? := by
  induction l with
  | nil => simp at h
  | cons a l ih =>
    rw [List.dropWhile_cons] at h ⊢
    split
    · rename_i hpa
      rw [if_pos hpa] at h
      have hl : l ≠ [] := by
        intro he
        subst he
        simp at h
      cases l with
      | nil => exact absurd rfl hl
      | cons b l' => rw [ih h, List.getLast?_cons_cons]
    · rfl

/-- The first character of a non-empty `trimChars` result is not whitespace. -/
theorem trimChars_head (s : List Char) (c : Char) (tl : List Char)
    (h : trimChars s = c :: tl) : isWs c = false := by
  unfold trimChars at h
  have hv : ((s.dropWhile isWs).reverse.dropWhile isWs).getLast? = some c := by
    rw [← List.head?_reverse, h]
    rfl
  have hne : (s.dropWhile isWs).reverse.dropWhile isWs ≠ [] := by
    intro he
    rw [he] at hv
    cases hv
  rw [dropWhile_getLast? isWs _ hne, List.getLast?_reverse] at hv
  obtain ⟨u, hu⟩ : ∃ u, s.dropWhile isWs = c :: u := by
    cases hd : s.dropWhile isWs with
    | nil => rw [hd] at hv; cases hv
    | cons x u =>
      rw [hd] at hv
      injection hv with hv
      subst hv
      exact ⟨u, rfl⟩
  exact dropWhile_head_not isWs s c u hu

/-- The last character of a non-empty `trimChars` result is not whitespace. -/
theorem trimChars_getLast (s : List Char) (c : Char)
    (h : (trimChars s).getLast? = some c) : isWs c = false := by
  unfold trimChars at h
  rw [List.getLast?_reverse] at h
  obtain ⟨u, hu⟩ :
      ∃ u, (s.dropWhile isWs).reverse.dropWhile isWs = c :: u := by
    cases hd : (s.dropWhile isWs).reverse.dropWhile isWs with
    | nil => rw [hd] at h; cases h
    | cons x u =>
      rw [hd] at h
      injection h with h
      subst h
      exact ⟨u, rfl⟩
  exact dropWhile_head_not isWs _ c u hu

/-- `trimChars` keeps at least one character when the list contains a
non-whitespace character. -/
theorem trimChars_ne_nil_of_mem (s : List Char) (c : Char) (hc : c ∈ s)
    (hpc : isWs c = false) : trimChars s ≠ [] := by
  intro he
  unfold trimChars at he
  rw [List.reverse_eq_nil_iff] at he
  rw [List.dropWhile_eq_nil_iff] at he
  have hmem : c ∈ (s.dropWhile isWs).reverse :=
    List.mem_reverse.mpr (mem_dropWhile_of_not isWs s c hc hpc)
  rw [he c hmem] at hpc
  cases hpc

/-- `stripCr` only removes a character, so membership transfers back. -/
theorem mem_of_mem_stripCr (l : List Char) (c : Char) (h : c ∈ stripCr l) :
    c ∈ l := by
  unfold stripCr at h
  split at h
  · exact (List.dropLast_sublist l).mem h
  · exact h

/-- `stripCr` keeps a non-whitespace head character in place. -/
theorem stripCr_cons (c : Char) (l : List Char) (hc : isWs c = false) :
    ∃ tl, stripCr (c :: l) = c :: tl := by
  unfold stripCr
  split
  · rename_i hlast
    cases l with
    | nil =>
      have h1 : some c = some '\x0d' := hlast
      injection h1 with h1
      rw [h1] at hc
      cases hc
    | cons b l' => exact ⟨(b :: l').dropLast, rfl⟩
  · exact ⟨l, rfl⟩

/-- Appending on the right of a cons keeps the last element. -/
theorem getLast?_cons_ne {α : Type} (a : α) (l : List α) (h : l ≠ []) :
    (a :: l).getLast? = l.getLast? := by
  cases l with
  | nil => exact absurd rfl h
  | cons b l' => exact List.getLast?_cons_cons

/-- The last element of an append with a non-empty right summand. -/
theorem getLast?_append_right {α : Type} (l l' : List α) (y : α)
    (h : l'.getLast? = some y) : (l ++ l').getLast? = some y := by
  rw [List.getLast?_append, h]
  rfl

/-- `rustLinesAux` always produces at least one line. -/
theorem rustLinesAux_ne_nil (rest : List Char) (cur : List Char) :
    rustLinesAux cur rest ≠ [] := by
  induction rest generalizing cur with
  | nil => simp [rustLinesAux]
  | cons c rest ih =>
    unfold rustLinesAux
    split
    · split
      · simp
      · simp
    · exact ih (cur ++ [c])

/-- No produced line contains a newline character (given the accumulator does
not). -/
theorem rustLinesAux_no_newline (rest : List Char) (cur : List Char)
    (hcur : '\n' ∉ cur) (l : List Char) (hl : l ∈ rustLinesAux cur rest) :
    '\n' ∉ l := by
  induction rest generalizing cur with
  | nil =>
    simp only [rustLinesAux, List.mem_singleton] at hl
    subst hl
    intro hmem
    exact hcur (mem_of_mem_stripCr cur '\n' hmem)
  | cons c rest ih =>
    unfold rustLinesAux at hl
    split at hl
    · split at hl
      · simp only [List.mem_singleton] at hl
        subst hl
        intro hmem
        exact hcur (mem_of_mem_stripCr cur '\n' hmem)
      · rcases List.mem_cons.mp hl with rfl | hmem
        · intro hmem2
          exact hcur (mem_of_mem_stripCr cur '\n' hmem2)
        · exact ih [] (by simp) hmem
    · rename_i hc
      refine ih (cur ++ [c]) ?_ hl
      intro hmem
      rcases List.mem_append.mp hmem with hmem1 | hmem2
      · exact hcur hmem1
      · simp only [List.mem_singleton] at hmem2
        exact hc hmem2.symm

/-- The first produced line is the accumulator followed by the text up to the
first newline, with a trailing carriage return stripped. -/
theorem rustLinesAux_head (rest : List Char) (cur : List Char) :
    ∃ tail, rustLinesAux cur rest =
      stripCr (cur ++ rest.takeWhile (fun c => c != '\n')) :: tail := by
  induction rest generalizing cur with
  | nil => exact ⟨[], by simp [rustLinesAux]⟩
  | cons c rest ih =>
    unfold rustLinesAux
    by_cases hc : c = '\n'
    · subst hc
      rw [if_pos rfl]
      have htw : (('\n' :: rest).takeWhile fun c => c != '\n') = [] := by
        rw [List.takeWhile_cons]
        simp
      rw [htw, List.append_nil]
      split
      · exact ⟨[], rfl⟩
      · exact ⟨rustLinesAux [] rest, rfl⟩
    · rw [if_neg hc]
      obtain ⟨tail, htail⟩ := ih (cur ++ [c])
      refine ⟨tail, ?_⟩
      rw [htail]
      have htw : ((c :: rest).takeWhile fun x => x != '\n') =
          c :: rest.takeWhile (fun x => x != '\n') := by
        rw [List.takeWhile_cons, if_pos (by simpa using hc)]
      rw [htw, List.append_cons cur c, List.append_assoc]
      simp

/-- The last produced line ends with the last character of the input, when
that character is not whitespace. -/
theorem rustLinesAux_getLast (rest : List Char) (cur : List Char) (c : Char)
    (hlast : (cur ++ rest).getLast? = some c) (hcw : isWs c = false) :
    ∃ lN, (rustLinesAux cur rest).getLast? = some lN ∧
      lN.getLast? = some c := by
  induction rest generalizing cur with
  | nil =>
    rw [List.append_nil] at hlast
    have hstrip : stripCr cur = cur := by
      unfold stripCr
      split
      · rename_i hl
        rw [hlast] at hl
        injection hl with hl
        rw [hl] at hcw
        exact absurd hcw (by decide)
      · rfl
    refine ⟨cur, ?_, hlast⟩
    simp [rustLinesAux, hstrip]
  | cons d rest ih =>
    unfold rustLinesAux
    by_cases hd : d = '\n'
    · subst hd
      rw [if_pos rfl]
      cases hrest : rest with
      | nil =>
        subst hrest
        rw [getLast?_append_right cur ['\n'] '\n' rfl] at hlast
        injection hlast with hlast
        rw [← hlast] at hcw
        exact absurd hcw (by decide)
      | cons e rest' =>
        have hne : rest ≠ [] := by rw [hrest]; simp
        rw [← hrest]
        rw [show rest.isEmpty = false from by
              rw [hrest]; rfl]
        simp only [Bool.false_eq_true, if_false]
        have h' : rest.getLast? = some c := by
          rw [List.getLast?_append, getLast?_cons_ne '\n' rest hne] at hlast
          cases hr : rest.getLast? with
          | none => exact absurd (List.getLast?_eq_none_iff.mp hr) hne
          | some y =>
            rw [hr] at hlast
            exact hlast
        obtain ⟨lN, h1, h2⟩ := ih [] (by rw [List.nil_append]; exact h')
        refine ⟨lN, ?_, h2⟩
        rw [getLast?_cons_ne _ _ (rustLinesAux_ne_nil rest [])]
        exact h1
    · rw [if_neg hd]
      rw [List.append_cons cur d] at hlast
      exact ih (cur ++ [d]) hlast

/-- `joinSpace` of a non-empty list starts with its first element. -/
theorem joinSpace_cons (l : List Char) (ls : List (List Char)) :
    ∃ rest, joinSpace (l :: ls) = l ++ rest := by
  cases ls with
  | nil => exact ⟨[], by simp [joinSpace]⟩
  | cons l2 ls2 => exact ⟨' ' :: joinSpace (l2 :: ls2), rfl⟩

/-- `joinSpace` ends with the last character of its last element. -/
theorem joinSpace_getLast (ls : List (List Char)) (lN : List Char) (c : Char)
    (hlast : ls.getLast? = some lN) (hc : lN.getLast? = some c) :
    (joinSpace ls).getLast? = some c := by
  induction ls with
  | nil => cases hlast
  | cons l ls ih =>
    cases ls with
    | nil =>
      have h1 : l = lN := by
        have h2 : some l = some lN := hlast
        injection h2
      subst h1
      exact hc
    | cons l2 ls2 =>
      rw [List.getLast?_cons_cons] at hlast
      have h2 := ih hlast
      have hJ : joinSpace (l2 :: ls2) ≠ [] := by
        intro he
        rw [he] at h2
        cases h2
      have hshow : joinSpace (l :: l2 :: ls2) =
          l ++ ' ' :: joinSpace (l2 :: ls2) := rfl
      rw [hshow]
      refine getLast?_append_right l _ c ?_
      rw [getLast?_cons_ne ' ' _ hJ]
      exact h2

/-- Characters of `joinSpace` are separator spaces or characters of the joined
lines. -/
theorem mem_joinSpace (ls : List (List Char)) (c : Char)
    (hc : c ∈ joinSpace ls) : c = ' ' ∨ ∃ l ∈ ls, c ∈ l := by
  induction ls with
  | nil => cases hc
  | cons l ls ih =>
    cases ls with
    | nil =>
      exact Or.inr ⟨l, List.mem_cons_self l [], hc⟩
    | cons l2 ls2 =>
      have hshow : joinSpace (l :: l2 :: ls2) =
          l ++ ' ' :: joinSpace (l2 :: ls2) := rfl
      rw [hshow] at hc
      rcases List.mem_append.mp hc with h1 | h2
      · exact Or.inr ⟨l, List.mem_cons_self l _, h1⟩
      · rcases List.mem_cons.mp h2 with rfl | h3
        · exact Or.inl rfl
        · rcases ih h3 with h4 | ⟨l', hl', hcl'⟩
          · exact Or.inl h4
          · exact Or.inr ⟨l', List.mem_cons_of_mem l hl', hcl'⟩

/-- `filter` keeps the last element when it satisfies the predicate. -/
theorem filter_getLast {α : Type} (p : α → Bool) (ls : List α) (a : α)
    (hlast : ls.getLast? = some a) (hp : p a = true) :
    (ls.filter p).getLast? = some a := by
  induction ls with
  | nil => cases hlast
  | cons l ls ih =>
    cases ls with
    | nil =>
      have h1 : l = a := by
        have h2 : some l = some a := hlast
        injection h2
      subst h1
      rw [List.filter_cons, if_pos hp]
      rfl
    | cons l2 ls2 =>
      rw [List.getLast?_cons_cons] at hlast
      have h2 := ih hlast
      have hne : List.filter p (l2 :: ls2) ≠ [] := by
        intro he
        rw [he] at h2
        cases h2
      rw [List.filter_cons]
      split
      · rw [getLast?_cons_ne l _ hne]
        exact h2
      · exact h2

/-- C10: the cleanup stage of `transcribe` only succeeds with a non-empty text
that contains no newline, starts and ends with non-whitespace characters, and
whose replay through `type_text` therefore never presses the Enter key. -/
theorem c10_transcription_clean (raw out : List Char)
    (h : clean_transcription raw = Except.ok out) :
    out ≠ [] ∧
    (∀ c ∈ out, c ≠ '\n') ∧
    (∃ c tl, out = c :: tl ∧ isWs c = false) ∧
    (∃ c, out.getLast? = some c ∧ isWs c = false) ∧
    KeyAction.enterKey ∉ type_text out := by
  unfold clean_transcription at h
  dsimp only at h
  split at h
  · cases h
  · rename_i hnempty
    injection h with h
    subst h
    -- The trimmed input is non-empty.
    have ht : trimChars raw ≠ [] := by
      intro he
      rw [he] at hnempty
      exact hnempty rfl
    obtain ⟨h0, t0, hht⟩ : ∃ h0 t0, trimChars raw = h0 :: t0 := by
      cases hc : trimChars raw with
      | nil => exact absurd hc ht
      | cons x xs => exact ⟨x, xs, rfl⟩
    have hh0 : isWs h0 = false := trimChars_head raw h0 t0 hht
    have hh0n : h0 ≠ '\n' := by
      intro he
      rw [he] at hh0
      exact absurd hh0 (by decide)
    -- The last character of the trimmed input.
    obtain ⟨cL, hcL⟩ : ∃ cL, (trimChars raw).getLast? = some cL := by
      cases hge : (trimChars raw).getLast? with
      | none => exact absurd (List.getLast?_eq_none_iff.mp hge) ht
      | some y => exact ⟨y, rfl⟩
    have hcLw : isWs cL = false := trimChars_getLast raw cL hcL
    -- Lines of the trimmed input.
    have hlines : rustLines (trimChars raw) =
        rustLinesAux [] (trimChars raw) := by
      unfold rustLines
      rw [hht]
      rfl
    -- The first line starts with the first trimmed character.
    obtain ⟨tail, htail⟩ := rustLinesAux_head (trimChars raw) []
    rw [List.nil_append] at htail
    have htw : (trimChars raw).takeWhile (fun c => c != '\n') =
        h0 :: t0.takeWhile (fun c => c != '\n') := by
      rw [hht, List.takeWhile_cons, if_pos (by simpa using hh0n)]
    rw [htw] at htail
    obtain ⟨l0t, hl0⟩ := stripCr_cons h0 _ hh0
    rw [hl0] at htail
    -- The first line passes the filter.
    have hl0keep : (!(trimChars (h0 :: l0t)).isEmpty) = true := by
      have hne := trimChars_ne_nil_of_mem (h0 :: l0t) h0
        (List.mem_cons_self h0 l0t) hh0
      cases hc : trimChars (h0 :: l0t) with
      | nil => exact absurd hc hne
      | cons _ _ => rfl
    have hfilter :
        (rustLines (trimChars raw)).filter
            (fun line => !(trimChars line).isEmpty) =
          (h0 :: l0t) ::
            tail.filter (fun line => !(trimChars line).isEmpty) := by
      rw [hlines, htail, List.filter_cons, if_pos hl0keep]
    -- The join starts with the first line.
    obtain ⟨jrest, hjrest⟩ := joinSpace_cons (h0 :: l0t)
      (tail.filter (fun line => !(trimChars line).isEmpty))
    have hout :
        joinSpace ((rustLines (trimChars raw)).filter
            (fun line => !(trimChars line).isEmpty)) =
          h0 :: (l0t ++ jrest) := by
      rw [hfilter, hjrest]
      rfl
    -- The last line of the lines list.
    obtain ⟨lN, hlN1, hlN2⟩ := rustLinesAux_getLast (trimChars raw) [] cL
      (by rw [List.nil_append]; exact hcL) hcLw
    have hlNkeep : (!(trimChars lN).isEmpty) = true := by
      have hmemN : cL ∈ lN :=
        List.mem_of_mem_getLast? (by rw [hlN2]; exact Option.mem_def.mpr rfl)
      have hne := trimChars_ne_nil_of_mem lN cL hmemN hcLw
      cases hc : trimChars lN with
      | nil => exact absurd hc hne
      | cons _ _ => rfl
    have hfiltLast :
        ((rustLines (trimChars raw)).filter
            (fun line => !(trimChars line).isEmpty)).getLast? = some lN := by
      rw [hlines]
      exact filter_getLast _ _ lN hlN1 hlNkeep
    have hjoinLast :
        (joinSpace ((rustLines (trimChars raw)).filter
            (fun line => !(trimChars line).isEmpty))).getLast? = some cL :=
      joinSpace_getLast _ lN cL hfiltLast hlN2
    -- No newline anywhere in the join.
    have hnonl : ∀ c ∈ joinSpace ((rustLines (trimChars raw)).filter
        (fun line => !(trimChars line).isEmpty)), c ≠ '\n' := by
      intro c hcmem
      rcases mem_joinSpace _ c hcmem with rfl | ⟨l, hlmem, hclmem⟩
      · decide
      · intro he
        subst he
        have hlmem2 : l ∈ rustLines (trimChars raw) :=
          List.mem_of_mem_filter hlmem
        rw [hlines] at hlmem2
        exact rustLinesAux_no_newline (trimChars raw) [] (by simp) l hlmem2
          hclmem
    refine ⟨?_, hnonl, ?_, ?_, ?_⟩
    · rw [hout]
      simp
    · exact ⟨h0, l0t ++ jrest, hout, hh0⟩
    · exact ⟨cL, hjoinLast, hcLw⟩
    · intro hmem
      rcases List.mem_map.mp hmem with ⟨c, hcmem, hceq⟩
      by_cases hcn : c = '\n'
      · exact hnonl c hcmem hcn
      · rw [if_neg hcn] at hceq
        cases hceq

theorem c10_witness :
    clean_transcription " hi\nthere ".toList = Except.ok "hi there".toList ∧
    "hi there".toList ≠ [] :=
  ⟨rfl, (c10_transcription_clean " hi\nthere ".toList "hi there".toList rfl).1⟩

end TheHand
